import Mathlib

/-!
# discord-auto-upload (`dau.go`): scanner, watermark protocol and upload outcome

A shallow embedding of `dau.go`.  Go strings are modelled as Lean strings
(sequences of Unicode code points, i.e. well-formed UTF-8), `time.Time`
values as integers on the wall-clock time line (every comparison made by the
program has a file modification time as one operand, which carries no
monotonic reading, so `After` and `Before` compare wall-clock instants), and
`os.FileMode` as a natural number holding the 32 mode bits.

Standard-library behaviour that the program only calls is either transcribed
(`filepath.Ext`, `strings.ToLower`, `FileMode.IsRegular`) or taken as a
parameter of the environment (`Env`): the Unicode lower-case table for
non-ASCII runes, the platform's path separator set, and `json.Unmarshal`.
-/

namespace Dau

deriving instance DecidableEq for Except

/-! ## Environment -/

/-- The attachment record of the response, `DiscordAPIResponseAttachment`. -/
structure DiscordAPIResponseAttachment where
  Url : String
  Proxy_url : String
  Size : Int
  Width : Int
  Height : Int
  Filename : String
  deriving DecidableEq, Repr

/-- The response record, `DiscordAPIResponse`. -/
structure DiscordAPIResponse where
  Attachments : List DiscordAPIResponseAttachment
  Id : Int
  deriving DecidableEq, Repr

/-- What the program takes from its platform and libraries.
`windows` selects the path separator set of `os.IsPathSeparator`,
`unicodeLower` is the lower-case mapping of `unicode.ToLower` on runes
above `MaxASCII`, and `unmarshal` is `json.Unmarshal` into a zero
`DiscordAPIResponse` (`Except.error` when it returns a non-nil error). -/
structure Env where
  windows : Bool
  unicodeLower : Char → Char
  unmarshal : String → Except String DiscordAPIResponse

/-! ## `filepath.Ext`, `strings.ToLower`, `file_eligible` -/

/-- The function `os.IsPathSeparator`: slash everywhere, also the backslash
(code point 92) on Windows. -/
def IsPathSeparator (env : Env) (c : Char) : Bool :=
  c == '/' || (env.windows && c == Char.ofNat 92)

/-- The loop of `filepath.Ext`: `n` is `i + 1`, the loop runs while `i >= 0`
and `path[i]` is not a separator, and returns `path[i:]` at the first dot. -/
def ExtLoop (env : Env) (path : List Char) : Nat → List Char
  | 0 => []
  | i + 1 =>
    if IsPathSeparator env (path.getD i 'x') then []
    else if path.getD i 'x' == '.' then path.drop i
    else ExtLoop env path i

/-- The function `filepath.Ext`. -/
def Ext (env : Env) (path : String) : String :=
  String.mk (ExtLoop env path.data path.data.length)

/-- The function `unicode.ToLower`: ASCII letters are shifted, other ASCII
runes are kept, runes above `MaxASCII` go through the case table. -/
def unicodeToLower (env : Env) (r : Char) : Char :=
  if r.toNat ≤ 127 then
    (if 'A'.toNat ≤ r.toNat ∧ r.toNat ≤ 'Z'.toNat then Char.ofNat (r.toNat + 32) else r)
  else env.unicodeLower r

/-- The function `strings.ToLower`: the ASCII fast path and the general
path both map every rune through `unicode.ToLower`. -/
def ToLower (env : Env) (s : String) : String :=
  String.mk (s.data.map (unicodeToLower env))

/-- The function `file_eligible`. -/
def file_eligible (env : Env) (file : String) : Bool :=
  let extension := ToLower env (Ext env file)
  if extension == ".png" || extension == ".jpg" || extension == ".gif" then
    true
  else
    false

/-- The extension as the specification words it: the last path element is
what follows the final separator. -/
def lastElement (env : Env) (path : List Char) : List Char :=
  (path.reverse.takeWhile (fun c => !IsPathSeparator env c)).reverse

/-- The extension as the specification words it: the suffix of an element
starting at its final dot, empty when the element has no dot. -/
def suffixFromFinalDot (e : List Char) : List Char :=
  if '.' ∈ e then '.' :: (e.reverse.takeWhile (fun c => c != '.')).reverse else []

/-- The extension as the specification words it. -/
def specExt (env : Env) (path : String) : String :=
  String.mk (suffixFromFinalDot (lastElement env path.data))

/-! ## Times, file modes, directory entries -/

/-- The method `Time.After`: `t.After u` reports whether `t` is after `u`. -/
def After (t u : Int) : Bool := decide (u < t)

/-- The method `Time.Before`: `t.Before u` reports whether `t` is before `u`. -/
def Before (t u : Int) : Bool := decide (t < u)

/-- The bit `os.ModeDir`. -/
def ModeDir : Nat := 2 ^ 31
/-- The bit `os.ModeSymlink`. -/
def ModeSymlink : Nat := 2 ^ 27
/-- The bit `os.ModeDevice`. -/
def ModeDevice : Nat := 2 ^ 26
/-- The bit `os.ModeNamedPipe`. -/
def ModeNamedPipe : Nat := 2 ^ 25
/-- The bit `os.ModeSocket`. -/
def ModeSocket : Nat := 2 ^ 24
/-- The bit `os.ModeCharDevice`. -/
def ModeCharDevice : Nat := 2 ^ 21
/-- The bit `os.ModeIrregular`. -/
def ModeIrregular : Nat := 2 ^ 19

/-- The mask `os.ModeType`. -/
def ModeType : Nat :=
  ModeDir ||| ModeSymlink ||| ModeNamedPipe ||| ModeSocket ||| ModeDevice |||
    ModeCharDevice ||| ModeIrregular

/-- The method `FileMode.IsRegular`: `m&ModeType == 0`. -/
def IsRegular (m : Nat) : Bool := m &&& ModeType == 0

/-- What the program reads of an `os.FileInfo`. -/
structure FileInfo where
  ModTime : Int
  Mode : Nat
  deriving DecidableEq, Repr

/-- One call of the walk function by `filepath.Walk`: the path, the file
info (`none` for a nil `os.FileInfo`, which `Walk` passes when `Lstat`
failed) and the walk error (`none` for nil). -/
structure Visit where
  path : String
  f : Option FileInfo
  err : Option String
  deriving DecidableEq, Repr

/-! ## Program state and process termination -/

/-- The two package-level watermarks. -/
structure Globals where
  last_check : Int
  new_last_check : Int
  deriving DecidableEq, Repr

/-- The ways the process ends: `log.Fatal` or a run-time panic. -/
inductive Halt where
  | fatal (msg : String)
  | panic (msg : String)
  deriving DecidableEq, Repr

/-! ## Uploader -/

/-- The `http.Response` as the program reads it: the status code and what
`ioutil.ReadAll(resp.Body)` returns. -/
structure Response where
  StatusCode : Int
  Body : Except String String

/-- What the outside world does to one upload: the errors (`none` for nil)
of `os.Open`, `CreateFormFile`, `writer.Close` and `http.NewRequest`, and
the result of `client.Do`. -/
structure Upload where
  Open : Option String
  CreateFormFile : Option String
  Close : Option String
  NewRequest : Option String
  Do : Except String Response

/-- The function `newfileUploadRequest`: the returned error (`none` when a
request was built).  When `http.NewRequest` fails the request is nil and
setting its header is a nil dereference. -/
def newfileUploadRequest (u : Upload) : Except Halt (Option String) :=
  match u.Open with
  | some e => .ok (some e)
  | none =>
    match u.CreateFormFile with
    | some e => .ok (some e)
    | none =>
      match u.Close with
      | some e => .ok (some e)
      | none =>
        match u.NewRequest with
        | some _ => .error (.panic "nil pointer dereference")
        | none => .ok none

/-- What `process_file` logs before it returns.  The elapsed time and the
transfer rate of the last log line are wall-clock quantities and are left
out. -/
inductive Report where
  | badResponse (code : Int)
  | couldNotParse (err body : String)
  | noAttachments
  | uploaded (url : String) (width height id size : Int)
  deriving DecidableEq, Repr

/-- The function `process_file`, on the upload described by `u`. -/
def process_file (env : Env) (u : Upload) : Except Halt Report :=
  match newfileUploadRequest u with
  | .error h => .error h
  | .ok (some e) => .error (.fatal e)
  | .ok none =>
    match u.Do with
    | .error e => .error (.fatal ("Error performing request:" ++ e))
    | .ok resp =>
      if resp.StatusCode != 200 then .ok (.badResponse resp.StatusCode)
      else
        match resp.Body with
        | .error e => .error (.fatal ("could not deal with body" ++ e))
        | .ok res_body =>
          match env.unmarshal res_body with
          | .error e => .ok (.couldNotParse e res_body)
          | .ok res =>
            match res.Attachments with
            | [] => .ok .noAttachments
            | a :: _ => .ok (.uploaded a.Url a.Width a.Height res.Id a.Size)

/-! ## Scanner and driver loop -/

/-- The outcome of a call of the walk function or of `filepath.Walk`: the
globals afterwards, the paths handed to `process_file` in order, and either
the returned error (`none` for nil) or the end of the process. -/
structure Ret where
  globals : Globals
  uploads : List String
  result : Except Halt (Option String)

/-- The function `check_file`; `net` is what the world does to an upload of
a given path during this pass. -/
def check_file (env : Env) (net : String → Upload) (g : Globals) (v : Visit) : Ret :=
  match v.f with
  | none => ⟨g, [], .error (.panic "nil pointer dereference")⟩
  | some f =>
    if After f.ModTime g.last_check && IsRegular f.Mode then
      let g1 : Globals :=
        if Before g.new_last_check f.ModTime then { g with new_last_check := f.ModTime } else g
      if file_eligible env v.path then
        match process_file env (net v.path) with
        | .error h => ⟨g, [v.path], .error h⟩
        | .ok _ => ⟨g1, [v.path], .ok none⟩
      else ⟨g1, [], .ok none⟩
    else ⟨g, [], .ok none⟩

/-- The function `filepath.Walk`, given the sequence of calls it makes in
walk order: it stops at the first call that ends the process or returns a
non-nil error and returns that error (`check_file` never returns
`SkipDir`). -/
def Walk (walkFn : Globals → Visit → Ret) (g : Globals) : List Visit → Ret
  | [] => ⟨g, [], .ok none⟩
  | v :: vs =>
    let r := walkFn g v
    match r.result with
    | .ok none =>
      let r2 := Walk walkFn r.globals vs
      ⟨r2.globals, r.uploads ++ r2.uploads, r2.result⟩
    | _ => r

/-- One pass: the calls `filepath.Walk` makes over the directory snapshot
and what the world does to uploads meanwhile. -/
structure Pass where
  walk : List Visit
  net : String → Upload

/-- One completed iteration of the loop of `main`: the paths handed to
`process_file` and the globals after `last_check = new_last_check`. -/
structure Iter where
  uploads : List String
  globals : Globals
  deriving DecidableEq, Repr

/-- The body of the loop of `main` (the sleep apart). -/
def mainBody (env : Env) (g : Globals) (p : Pass) : Except Halt Iter :=
  let r := Walk (check_file env p.net) g p.walk
  match r.result with
  | .error h => .error h
  | .ok (some e) => .error (.fatal ("could not watch path" ++ e))
  | .ok none => .ok ⟨r.uploads, { r.globals with last_check := r.globals.new_last_check }⟩

/-- The loop of `main` over a finite sequence of passes: the completed
iterations, or the end of the process. -/
def mainLoop (env : Env) (g : Globals) : List Pass → Except Halt (List Iter)
  | [] => .ok []
  | p :: ps =>
    match mainBody env g p with
    | .error h => .error h
    | .ok it =>
      match mainLoop env it.globals ps with
      | .error h => .error h
      | .ok its => .ok (it :: its)

/-- The initial globals: `last_check` and `new_last_check` are initialised
in that order from two readings of the clock. -/
def init (now1 now2 : Int) : Globals := ⟨now1, now2⟩

/-- The states of the watermarks at the head of the loop of `main`, from an
initial state whose two clock readings are in order (the first not after
the second). -/
inductive Reachable (env : Env) : Globals → Prop
  | start (now1 now2 : Int) (h : now1 ≤ now2) : Reachable env (init now1 now2)
  | pass (g : Globals) (p : Pass) (it : Iter) (hg : Reachable env g)
      (hp : mainBody env g p = .ok it) : Reachable env it.globals

/-- Whether a visited entry is a regular file modified after `last_check`. -/
def isNew (last_check : Int) (v : Visit) : Bool :=
  match v.f with
  | none => false
  | some f => After f.ModTime last_check && IsRegular f.Mode

/-- The modification times of the regular files of a snapshot modified
after `last_check`, in walk order. -/
def newTimes (last_check : Int) (vs : List Visit) : List Int :=
  vs.filterMap (fun v => match v.f with
    | none => none
    | some f => if After f.ModTime last_check && IsRegular f.Mode then some f.ModTime else none)

/-- The paths of a snapshot that are regular files modified after
`last_check` with an eligible extension, in walk order. -/
def candidates (env : Env) (last_check : Int) (vs : List Visit) : List String :=
  (vs.filter (fun v => isNew last_check v && file_eligible env v.path)).map (fun v => v.path)

/-! ## Iteration start states and a closed example environment -/

/-- The globals at the head of iteration `M` of the loop of `main`: the
initial globals for the first iteration, afterwards those left by the
iteration before. -/
def startGlobals (g : Globals) (its : List Iter) : Nat → Globals
  | 0 => g
  | M + 1 => (its[M]?.map (fun it => it.globals)).getD g

/-- The body of the specification's upload example. -/
def sampleBody : String :=
  "\x7b\x22attachments\x22:[\x7b\x22url\x22:\x22https://x/y.png\x22,\x22size\x22:1024,\x22width\x22:10,\x22height\x22:20,\x22filename\x22:\x22y.png\x22\x7d],\x22id\x22:\x2242\x22\x7d"

/-- What `json.Unmarshal` makes of `sampleBody`. -/
def sampleResponse : DiscordAPIResponse :=
  { Attachments :=
      [⟨"https://x/y.png", "", 1024, 10, 20, "y.png"⟩],
    Id := 42 }

/-- A stand-in for `json.Unmarshal` in closed examples: it decodes the two
bodies of the specification's examples the way `encoding/json` does (the
empty object leaves the zero value) and rejects every other body. -/
def tableUnmarshal (body : String) : Except String DiscordAPIResponse :=
  if body = sampleBody then .ok sampleResponse
  else if body = "\x7b\x7d" then .ok { Attachments := [], Id := 0 }
  else .error "invalid character"

/-- A Unix environment for closed examples. -/
def envUnix : Env :=
  { windows := false, unicodeLower := fun c => c, unmarshal := tableUnmarshal }

/-- An upload whose request is built and answered with the given status
and body. -/
def answered (code : Int) (body : String) : Upload :=
  { Open := none, CreateFormFile := none, Close := none, NewRequest := none,
    Do := .ok { StatusCode := code, Body := .ok body } }

/-- A regular file entry with mode `0644`. -/
def regularFile (path : String) (mtime : Int) : Visit :=
  ⟨path, some ⟨mtime, 420⟩, none⟩

/-! ## Lemmas on `check_file` -/

theorem ite_Before_eq_max (a b : Int) : (if Before a b then b else a) = max a b := by
  unfold Before
  by_cases h : a < b
  · simp [h, max_eq_right (le_of_lt h)]
  · simp [h, max_eq_left (not_lt.mp h)]

/-- The globals after the watermark update of `check_file`. -/
theorem check_file_g1 (g : Globals) (t : Int) :
    (if Before g.new_last_check t then { g with new_last_check := t } else g) =
      ⟨g.last_check, max g.new_last_check t⟩ := by
  rw [← ite_Before_eq_max]
  split <;> rfl

theorem check_file_some (env : Env) (net : String → Upload) (g : Globals) (v : Visit)
    (f : FileInfo) (hf : v.f = some f) :
    check_file env net g v =
      if (After f.ModTime g.last_check && IsRegular f.Mode) = true then
        if file_eligible env v.path = true then
          match process_file env (net v.path) with
          | .error h => ⟨g, [v.path], .error h⟩
          | .ok _ => ⟨⟨g.last_check, max g.new_last_check f.ModTime⟩, [v.path], .ok none⟩
        else ⟨⟨g.last_check, max g.new_last_check f.ModTime⟩, [], .ok none⟩
      else ⟨g, [], .ok none⟩ := by
  unfold check_file
  rw [hf]
  simp only [check_file_g1]

theorem check_file_last_check (env : Env) (net : String → Upload) (g : Globals) (v : Visit) :
    (check_file env net g v).globals.last_check = g.last_check := by
  cases hf : v.f with
  | none => simp [check_file, hf]
  | some f =>
    rw [check_file_some env net g v f hf]
    split
    · split
      · split <;> rfl
      · rfl
    · rfl

theorem check_file_result (env : Env) (net : String → Upload) (g : Globals) (v : Visit) :
    (check_file env net g v).result = .ok none ∨
      ∃ h, (check_file env net g v).result = .error h := by
  cases hf : v.f with
  | none => exact Or.inr ⟨.panic "nil pointer dereference", by simp [check_file, hf]⟩
  | some f =>
    rw [check_file_some env net g v f hf]
    split
    · split
      · split
        · exact Or.inr ⟨_, rfl⟩
        · exact Or.inl rfl
      · exact Or.inl rfl
    · exact Or.inl rfl

theorem check_file_new_last_check (env : Env) (net : String → Upload) (g : Globals) (v : Visit)
    (f : FileInfo) (hf : v.f = some f) (hr : (check_file env net g v).result = .ok none) :
    (check_file env net g v).globals.new_last_check =
      if After f.ModTime g.last_check && IsRegular f.Mode then max g.new_last_check f.ModTime
      else g.new_last_check := by
  rw [check_file_some env net g v f hf] at hr ⊢
  split
  · split
    · rename_i hc he
      simp only [hc, he, if_true] at hr
      split
      · rename_i hp
        simp [hp] at hr
      · rfl
    · rfl
  · rfl

theorem check_file_uploads (env : Env) (net : String → Upload) (g : Globals) (v : Visit) :
    (check_file env net g v).uploads =
      if isNew g.last_check v && file_eligible env v.path then [v.path] else [] := by
  cases hf : v.f with
  | none => simp [check_file, isNew, hf]
  | some f =>
    rw [check_file_some env net g v f hf]
    simp only [isNew, hf]
    by_cases hc : (After f.ModTime g.last_check && IsRegular f.Mode) = true
    · by_cases he : file_eligible env v.path = true
      · simp only [hc, he, if_true, Bool.and_self]
        split <;> rfl
      · simp [hc, he]
    · simp [hc]

/-! ## Lemmas on `Walk` and the loop of `main` -/

theorem Walk_cons_ok (walkFn : Globals → Visit → Ret) (g : Globals) (v : Visit)
    (vs : List Visit) (h : (walkFn g v).result = .ok none) :
    Walk walkFn g (v :: vs) =
      ⟨(Walk walkFn (walkFn g v).globals vs).globals,
        (walkFn g v).uploads ++ (Walk walkFn (walkFn g v).globals vs).uploads,
        (Walk walkFn (walkFn g v).globals vs).result⟩ := by
  simp only [Walk, h]

theorem Walk_cons_error (walkFn : Globals → Visit → Ret) (g : Globals) (v : Visit)
    (vs : List Visit) (e : Halt) (h : (walkFn g v).result = .error e) :
    Walk walkFn g (v :: vs) = walkFn g v := by
  simp only [Walk, h]

theorem Walk_last_check (env : Env) (net : String → Upload) (vs : List Visit) :
    ∀ g : Globals, (Walk (check_file env net) g vs).globals.last_check = g.last_check := by
  induction vs with
  | nil => intro g; rfl
  | cons v vs ih =>
    intro g
    rcases check_file_result env net g v with h | ⟨e, h⟩
    · rw [Walk_cons_ok _ g v vs h]
      simp only
      rw [ih, check_file_last_check]
    · rw [Walk_cons_error _ g v vs e h, check_file_last_check]

theorem Walk_result (env : Env) (net : String → Upload) (vs : List Visit) :
    ∀ g : Globals, (Walk (check_file env net) g vs).result = .ok none ∨
      ∃ h, (Walk (check_file env net) g vs).result = .error h := by
  induction vs with
  | nil => intro g; exact Or.inl rfl
  | cons v vs ih =>
    intro g
    rcases check_file_result env net g v with h | ⟨e, h⟩
    · rw [Walk_cons_ok _ g v vs h]
      exact ih _
    · rw [Walk_cons_error _ g v vs e h]
      exact Or.inr ⟨e, h⟩

theorem newTimes_cons (lc : Int) (v : Visit) (vs : List Visit) (f : FileInfo)
    (hf : v.f = some f) :
    newTimes lc (v :: vs) =
      if After f.ModTime lc && IsRegular f.Mode then f.ModTime :: newTimes lc vs
      else newTimes lc vs := by
  by_cases hc : (After f.ModTime lc && IsRegular f.Mode) = true
  · simp only [newTimes, List.filterMap_cons, hf, hc, if_true]
  · simp only [newTimes, List.filterMap_cons, hf, hc, if_false, Bool.false_eq_true]

/-- A walk that returns has met no nil file info, leaves `last_check`, sets
`new_last_check` to the running maximum and hands over the candidates. -/
theorem Walk_ok (env : Env) (net : String → Upload) (vs : List Visit) :
    ∀ g : Globals, (Walk (check_file env net) g vs).result = .ok none →
      (Walk (check_file env net) g vs).globals =
          ⟨g.last_check, (newTimes g.last_check vs).foldl max g.new_last_check⟩ ∧
        (Walk (check_file env net) g vs).uploads = candidates env g.last_check vs ∧
        ∀ v ∈ vs, ∃ f, v.f = some f := by
  induction vs with
  | nil =>
    intro g _
    exact ⟨rfl, rfl, by simp⟩
  | cons v vs ih =>
    intro g hr
    rcases check_file_result env net g v with h | ⟨e, h⟩
    · rw [Walk_cons_ok _ g v vs h] at hr ⊢
      simp only at hr ⊢
      obtain ⟨ih1, ih2, ih3⟩ := ih _ hr
      have hlc := check_file_last_check env net g v
      cases hf : v.f with
      | none => simp [check_file, hf] at h
      | some f =>
        have hn := check_file_new_last_check env net g v f hf h
        refine ⟨?_, ?_, ?_⟩
        · rw [ih1, hlc, hn, newTimes_cons g.last_check v vs f hf]
          split <;> simp
        · rw [ih2, hlc, check_file_uploads]
          unfold candidates
          rw [List.filter_cons]
          split <;> simp
        · intro w hw
          rcases List.mem_cons.mp hw with rfl | hw
          · exact ⟨f, hf⟩
          · exact ih3 w hw
    · rw [Walk_cons_error _ g v vs e h] at hr
      rw [h] at hr
      cases hr

/-- A walk returns when every entry has a file info and no upload of a
candidate ends the process. -/
theorem Walk_returns (env : Env) (net : String → Upload) (vs : List Visit) :
    ∀ g : Globals, (∀ v ∈ vs, ∃ f, v.f = some f) →
      (∀ p ∈ candidates env g.last_check vs, ∃ r, process_file env (net p) = .ok r) →
      (Walk (check_file env net) g vs).result = .ok none := by
  induction vs with
  | nil => intro g _ _; rfl
  | cons v vs ih =>
    intro g hf hp
    obtain ⟨f, hvf⟩ := hf v (List.mem_cons_self v vs)
    have h : (check_file env net g v).result = .ok none := by
      rw [check_file_some env net g v f hvf]
      by_cases hc : (After f.ModTime g.last_check && IsRegular f.Mode) = true
      · by_cases he : file_eligible env v.path = true
        · have hmem : v.path ∈ candidates env g.last_check (v :: vs) := by
            unfold candidates
            have : (isNew g.last_check v && file_eligible env v.path) = true := by
              simp [isNew, hvf, hc, he]
            rw [List.filter_cons]
            simp [this]
          obtain ⟨r, hr⟩ := hp _ hmem
          simp [hc, he, hr]
        · simp [hc, he]
      · simp [hc]
    rw [Walk_cons_ok _ g v vs h]
    simp only
    apply ih
    · intro w hw; exact hf w (List.mem_cons_of_mem v hw)
    · rw [check_file_last_check]
      intro p hpm
      apply hp
      unfold candidates at hpm ⊢
      rw [List.filter_cons]
      split
      · exact List.mem_cons_of_mem _ hpm
      · exact hpm

theorem mainBody_ok (env : Env) (g : Globals) (p : Pass) (it : Iter)
    (h : mainBody env g p = .ok it) :
    it.uploads = candidates env g.last_check p.walk ∧
      it.globals.new_last_check = (newTimes g.last_check p.walk).foldl max g.new_last_check ∧
      it.globals.last_check = it.globals.new_last_check ∧
      ∀ v ∈ p.walk, ∃ f, v.f = some f := by
  unfold mainBody at h
  rcases Walk_result env p.net p.walk g with hr | ⟨e, hr⟩
  · obtain ⟨h1, h2, h3⟩ := Walk_ok env p.net p.walk g hr
    simp only [hr] at h
    cases h
    simp only [h1, h2]
    exact ⟨trivial, trivial, trivial, h3⟩
  · simp only [hr] at h
    cases h

theorem mainBody_returns (env : Env) (g : Globals) (p : Pass)
    (hf : ∀ v ∈ p.walk, ∃ f, v.f = some f)
    (hp : ∀ q ∈ candidates env g.last_check p.walk, ∃ r, process_file env (p.net q) = .ok r) :
    mainBody env g p =
      .ok ⟨candidates env g.last_check p.walk,
        ⟨(newTimes g.last_check p.walk).foldl max g.new_last_check,
          (newTimes g.last_check p.walk).foldl max g.new_last_check⟩⟩ := by
  have hr := Walk_returns env p.net p.walk g hf hp
  obtain ⟨h1, h2, _⟩ := Walk_ok env p.net p.walk g hr
  unfold mainBody
  simp only [hr, h1, h2]

/-! ## Running maximum, membership in the derived lists -/

theorem foldl_max_ge_init (l : List Int) : ∀ a : Int, a ≤ l.foldl max a := by
  induction l with
  | nil => intro a; exact le_refl a
  | cons x l ih =>
    intro a
    rw [List.foldl_cons]
    exact le_trans (le_max_left a x) (ih _)

theorem foldl_max_ge_mem (l : List Int) : ∀ a x : Int, x ∈ l → x ≤ l.foldl max a := by
  induction l with
  | nil => intro a x hx; cases hx
  | cons y l ih =>
    intro a x hx
    rw [List.foldl_cons]
    rcases List.mem_cons.mp hx with rfl | hx
    · exact le_trans (le_max_right a x) (foldl_max_ge_init l _)
    · exact ih _ x hx

theorem foldl_max_mem (l : List Int) : ∀ a : Int, l.foldl max a = a ∨ l.foldl max a ∈ l := by
  induction l with
  | nil => intro a; exact Or.inl rfl
  | cons y l ih =>
    intro a
    rw [List.foldl_cons]
    rcases ih (max a y) with h | h
    · rw [h]
      rcases max_cases a y with ⟨h1, _⟩ | ⟨h1, _⟩
      · exact Or.inl h1
      · exact Or.inr (by rw [h1]; exact List.mem_cons_self y l)
    · exact Or.inr (List.mem_cons_of_mem y h)

theorem mem_newTimes (lc : Int) (vs : List Visit) (t : Int) :
    t ∈ newTimes lc vs ↔
      ∃ v ∈ vs, ∃ f, v.f = some f ∧ lc < f.ModTime ∧ IsRegular f.Mode = true ∧ f.ModTime = t := by
  unfold newTimes
  rw [List.mem_filterMap]
  constructor
  · rintro ⟨v, hv, h⟩
    cases hf : v.f with
    | none => simp [hf] at h
    | some f =>
      simp only [hf] at h
      by_cases hc : (After f.ModTime lc && IsRegular f.Mode) = true
      · simp only [hc, if_true, Option.some.injEq] at h
        simp only [After, Bool.and_eq_true, decide_eq_true_eq] at hc
        exact ⟨v, hv, f, hf, hc.1, hc.2, h⟩
      · simp [hc] at h
  · rintro ⟨v, hv, f, hf, h1, h2, h3⟩
    subst h3
    refine ⟨v, hv, ?_⟩
    have hc : (After f.ModTime lc && IsRegular f.Mode) = true := by
      simp [After, h1, h2]
    simp only [hf, hc, if_true]

theorem mem_candidates (env : Env) (lc : Int) (vs : List Visit) (p : String) :
    p ∈ candidates env lc vs ↔
      ∃ v ∈ vs, v.path = p ∧ file_eligible env v.path = true ∧
        ∃ f, v.f = some f ∧ lc < f.ModTime ∧ IsRegular f.Mode = true := by
  unfold candidates
  rw [List.mem_map]
  constructor
  · rintro ⟨v, hv, hp⟩
    rw [List.mem_filter] at hv
    obtain ⟨hv, hc⟩ := hv
    rw [Bool.and_eq_true] at hc
    cases hf : v.f with
    | none => simp [isNew, hf] at hc
    | some f =>
      have h1 := hc.1
      simp only [isNew, hf, After, Bool.and_eq_true, decide_eq_true_eq] at h1
      exact ⟨v, hv, hp, hc.2, f, hf, h1.1, h1.2⟩
  · rintro ⟨v, hv, hp, he, f, hf, h1, h2⟩
    refine ⟨v, ?_, hp⟩
    rw [List.mem_filter]
    refine ⟨hv, ?_⟩
    simp [isNew, hf, After, h1, h2, he]

theorem file_eligible_iff (env : Env) (file : String) :
    file_eligible env file = true ↔
      ToLower env (Ext env file) = ".png" ∨ ToLower env (Ext env file) = ".jpg" ∨
        ToLower env (Ext env file) = ".gif" := by
  unfold file_eligible
  simp [or_assoc]

theorem mainLoop_cons (env : Env) (g : Globals) (p : Pass) (ps : List Pass) (its : List Iter)
    (h : mainLoop env g (p :: ps) = .ok its) :
    ∃ it rest, mainBody env g p = .ok it ∧ mainLoop env it.globals ps = .ok rest ∧
      its = it :: rest := by
  unfold mainLoop at h
  cases h1 : mainBody env g p with
  | error e => simp [h1] at h
  | ok it =>
    simp only [h1] at h
    cases h2 : mainLoop env it.globals ps with
    | error e => simp [h2] at h
    | ok rest =>
      simp only [h2] at h
      cases h
      exact ⟨it, rest, rfl, h2, rfl⟩

/-- A completed pass keeps `last_check ≤ new_last_check` and does not lower
either watermark. -/
theorem mainBody_mono (env : Env) (g : Globals) (p : Pass) (it : Iter)
    (h : mainBody env g p = .ok it) :
    g.new_last_check ≤ it.globals.last_check ∧
      it.globals.last_check = it.globals.new_last_check := by
  obtain ⟨_, h2, h3, _⟩ := mainBody_ok env g p it h
  refine ⟨?_, h3⟩
  rw [h3, h2]
  exact foldl_max_ge_init _ _

theorem Reachable_le (env : Env) (g : Globals) (h : Reachable env g) :
    g.last_check ≤ g.new_last_check := by
  induction h with
  | start now1 now2 h => exact h
  | pass g p it _ hp _ => exact le_of_eq (mainBody_mono env g p it hp).2

/-! ## The scanner and the watermarks -/

theorem IsRegular_or_ModeDir (m : Nat) : IsRegular (m ||| ModeDir) = false := by
  unfold IsRegular
  have h : ((m ||| ModeDir) &&& ModeType).testBit 31 = true := by
    rw [Nat.testBit_and, Nat.testBit_or]
    have h1 : ModeDir.testBit 31 = true := by decide
    have h2 : ModeType.testBit 31 = true := by decide
    simp [h1, h2]
  have hne : (m ||| ModeDir) &&& ModeType ≠ 0 := by
    intro h0
    rw [h0] at h
    simp at h
  simpa using hne

/-- C2: for an entry with a file info, `check_file` hands the path to
`process_file` exactly when the mode is regular, the modification time is
strictly after `last_check` and the lower-cased extension is `.png`, `.jpg`
or `.gif`; a time equal to `last_check` and a mode with the directory bit
never qualify, whatever the name. -/
theorem C2_check_file_hands_over_iff (env : Env) (net : String → Upload) (g : Globals)
    (path : String) (f : FileInfo) (err : Option String) :
    ((check_file env net g ⟨path, some f, err⟩).uploads =
        if IsRegular f.Mode = true ∧ g.last_check < f.ModTime ∧
            (ToLower env (Ext env path) = ".png" ∨ ToLower env (Ext env path) = ".jpg" ∨
              ToLower env (Ext env path) = ".gif")
        then [path] else []) ∧
      (check_file env net g ⟨path, some ⟨g.last_check, f.Mode⟩, err⟩).uploads = [] ∧
      (check_file env net g ⟨path, some ⟨f.ModTime, f.Mode ||| ModeDir⟩, err⟩).uploads = [] := by
  refine ⟨?_, ?_, ?_⟩
  · rw [check_file_uploads]
    simp only [isNew, After, ← file_eligible_iff]
    by_cases h1 : IsRegular f.Mode = true <;> by_cases h2 : g.last_check < f.ModTime <;>
      by_cases h3 : file_eligible env path = true <;> simp [h1, h2, h3]
  · rw [check_file_uploads]
    simp [isNew, After]
  · rw [check_file_uploads]
    simp [isNew, IsRegular_or_ModeDir]

/-- C7: `check_file` never changes `last_check`; on an entry with a file
info it either returns nil with `new_last_check` raised to the maximum of
its previous value and the modification time when the entry is a regular
file modified strictly after `last_check` (eligible or not, whatever the
upload reported) and unchanged otherwise, or the process ended inside
`process_file`. -/
theorem C7_pending_watermark (env : Env) (net : String → Upload) (g : Globals)
    (path : String) (f : FileInfo) (err : Option String) :
    (check_file env net g ⟨path, some f, err⟩).globals.last_check = g.last_check ∧
      (((check_file env net g ⟨path, some f, err⟩).result = .ok none ∧
          (check_file env net g ⟨path, some f, err⟩).globals.new_last_check =
            if IsRegular f.Mode = true ∧ g.last_check < f.ModTime
            then max g.new_last_check f.ModTime else g.new_last_check) ∨
        (∃ h, (check_file env net g ⟨path, some f, err⟩).result = .error h ∧
          process_file env (net path) = .error h ∧ IsRegular f.Mode = true ∧
          g.last_check < f.ModTime ∧ file_eligible env path = true)) := by
  refine ⟨check_file_last_check _ _ _ _, ?_⟩
  rw [check_file_some env net g ⟨path, some f, err⟩ f rfl]
  by_cases h1 : IsRegular f.Mode = true <;> by_cases h2 : g.last_check < f.ModTime <;>
    by_cases h3 : file_eligible env path = true <;>
    cases h4 : process_file env (net path) <;> simp [After, h1, h2, h3, h4]

theorem mainLoop_chain (env : Env) (ps : List Pass) :
    ∀ (g : Globals) (its : List Iter), g.last_check ≤ g.new_last_check →
      mainLoop env g ps = .ok its →
      List.Chain (fun a b => a ≤ b) g.last_check (its.map (fun it => it.globals.last_check)) := by
  induction ps with
  | nil =>
    intro g its _ h
    simp only [mainLoop] at h
    cases h
    exact List.Chain.nil
  | cons p ps ih =>
    intro g its hg h
    obtain ⟨it, rest, h1, h2, rfl⟩ := mainLoop_cons env g p ps its h
    obtain ⟨hm1, hm2⟩ := mainBody_mono env g p it h1
    rw [List.map_cons]
    exact List.Chain.cons (le_trans hg hm1) (ih it.globals rest (le_of_eq hm2) h2)

/-- C3: from the initial state, whose `last_check` was read from the clock
before `new_last_check`, the values of `last_check` committed by a sequence
of completed passes never decrease, and the first is at least the initial
`last_check`. -/
theorem C3_monotonic_watermark (env : Env) (now1 now2 : Int) (hnow : now1 ≤ now2)
    (ps : List Pass) (its : List Iter) (hrun : mainLoop env (init now1 now2) ps = .ok its) :
    List.Chain (fun a b => a ≤ b) (init now1 now2).last_check
      (its.map (fun it => it.globals.last_check)) :=
  mainLoop_chain env ps (init now1 now2) its hnow hrun

theorem C3_monotonic_watermark_witness :
    List.Chain (fun a b => a ≤ b) (init 100 101).last_check
      ([(⟨["a.jpg"], ⟨150, 150⟩⟩ : Iter), ⟨[], ⟨150, 150⟩⟩].map
        (fun it => it.globals.last_check)) :=
  C3_monotonic_watermark envUnix 100 101 (by decide)
    [⟨[regularFile "a.jpg" 150], fun _ => answered 200 sampleBody⟩,
      ⟨[regularFile "a.jpg" 150], fun _ => answered 500 ""⟩]
    [⟨["a.jpg"], ⟨150, 150⟩⟩, ⟨[], ⟨150, 150⟩⟩] (by decide)

theorem mainBody_ceiling (env : Env) (g : Globals) (p : Pass) (it : Iter)
    (hg : g.last_check ≤ g.new_last_check) (h : mainBody env g p = .ok it)
    (v : Visit) (hv : v ∈ p.walk) (f : FileInfo) (hf : v.f = some f)
    (hreg : IsRegular f.Mode = true) : f.ModTime ≤ it.globals.last_check := by
  obtain ⟨_, h2, h3, _⟩ := mainBody_ok env g p it h
  rw [h3, h2]
  by_cases hn : g.last_check < f.ModTime
  · exact foldl_max_ge_mem _ _ _ ((mem_newTimes _ _ _).mpr ⟨v, hv, f, hf, hn, hreg, rfl⟩)
  · exact le_trans (le_trans (not_lt.mp hn) hg) (foldl_max_ge_init _ _)

theorem mainBody_floor (env : Env) (g : Globals) (p : Pass) (it : Iter)
    (h : mainBody env g p = .ok it) (v : Visit) (hv : v ∈ p.walk) (f : FileInfo)
    (hf : v.f = some f) (hreg : IsRegular f.Mode = true) (hn : g.last_check < f.ModTime) :
    f.ModTime ≤ it.globals.last_check := by
  obtain ⟨_, h2, h3, _⟩ := mainBody_ok env g p it h
  rw [h3, h2]
  exact foldl_max_ge_mem _ _ _ ((mem_newTimes _ _ _).mpr ⟨v, hv, f, hf, hn, hreg, rfl⟩)

theorem mainBody_not_uploaded (env : Env) (g : Globals) (p : Pass) (it : Iter)
    (h : mainBody env g p = .ok it) (path : String)
    (hold : ∀ w ∈ p.walk, w.path = path → ∀ fw, w.f = some fw → fw.ModTime ≤ g.last_check) :
    path ∉ it.uploads := by
  obtain ⟨h1, _, _, _⟩ := mainBody_ok env g p it h
  rw [h1, mem_candidates]
  rintro ⟨w, hw, hp, _, fw, hfw, hlt, _⟩
  exact absurd (hold w hw hp fw hfw) (not_le.mpr hlt)

/-- C4: from a reachable state, when a pass over a snapshot has completed,
a second pass over the same snapshot completes, hands nothing to
`process_file` and leaves `last_check` and `new_last_check` as they were. -/
theorem C4_idempotent_pass (env : Env) (g : Globals) (p1 p2 : Pass) (it1 : Iter)
    (hg : Reachable env g) (hsame : p2.walk = p1.walk)
    (h1 : mainBody env g p1 = .ok it1) :
    mainBody env it1.globals p2 = .ok ⟨[], it1.globals⟩ := by
  obtain ⟨_, _, h3, h4⟩ := mainBody_ok env g p1 it1 h1
  have hle := Reachable_le env g hg
  have hnt : newTimes it1.globals.last_check p2.walk = [] := by
    rw [List.eq_nil_iff_forall_not_mem]
    intro t ht
    obtain ⟨v, hv, f, hf, hlt, hreg, _⟩ := (mem_newTimes _ _ _).mp ht
    rw [hsame] at hv
    exact absurd (mainBody_ceiling env g p1 it1 hle h1 v hv f hf hreg) (not_le.mpr hlt)
  have hc : candidates env it1.globals.last_check p2.walk = [] := by
    rw [List.eq_nil_iff_forall_not_mem]
    intro q hq
    obtain ⟨v, hv, _, _, f, hf, hlt, hreg⟩ := (mem_candidates _ _ _ _).mp hq
    rw [hsame] at hv
    exact absurd (mainBody_ceiling env g p1 it1 hle h1 v hv f hf hreg) (not_le.mpr hlt)
  have hr := mainBody_returns env it1.globals p2 (by rw [hsame]; exact h4)
    (by rw [hc]; intro q hq; cases hq)
  rw [hr, hc, hnt]
  obtain ⟨u, ⟨lc, nlc⟩⟩ := it1
  simp only at h3
  subst h3
  rfl

theorem C4_idempotent_pass_witness :
    mainBody envUnix (⟨["a.jpg"], ⟨150, 150⟩⟩ : Iter).globals
        ⟨[regularFile "a.jpg" 150, regularFile "notes.txt" 120],
          fun _ => answered 500 ""⟩ =
      .ok ⟨[], (⟨["a.jpg"], ⟨150, 150⟩⟩ : Iter).globals⟩ :=
  C4_idempotent_pass envUnix (init 100 101)
    ⟨[regularFile "a.jpg" 150, regularFile "notes.txt" 120],
      fun _ => answered 200 sampleBody⟩
    ⟨[regularFile "a.jpg" 150, regularFile "notes.txt" 120], fun _ => answered 500 ""⟩
    ⟨["a.jpg"], ⟨150, 150⟩⟩ (Reachable.start 100 101 (by decide)) rfl (by decide)

/-- Every completed iteration ran the loop body from its start globals. -/
theorem mainLoop_get (env : Env) (ps : List Pass) :
    ∀ (g : Globals) (its : List Iter), mainLoop env g ps = .ok its →
      ∀ (M : Nat) (pM : Pass) (itM : Iter), ps[M]? = some pM → its[M]? = some itM →
        mainBody env (startGlobals g its M) pM = .ok itM := by
  induction ps with
  | nil => intro g its _ M pM itM hp _; simp at hp
  | cons p ps ih =>
    intro g its h M pM itM hp hi
    obtain ⟨it, rest, h1, h2, rfl⟩ := mainLoop_cons env g p ps its h
    cases M with
    | zero =>
      simp only [List.getElem?_cons_zero, Option.some.injEq] at hp hi
      subst hp; subst hi
      exact h1
    | succ M =>
      simp only [List.getElem?_cons_succ] at hp hi
      have := ih it.globals rest h2 M pM itM hp hi
      cases M with
      | zero => simpa [startGlobals] using this
      | succ K =>
        have hK : ∃ itK, rest[K]? = some itK := by
          cases hk : rest[K]? with
          | some itK => exact ⟨itK, rfl⟩
          | none =>
            have h3 := List.getElem?_eq_none_iff.mp hk
            have h4 : K + 1 < rest.length := (List.getElem?_eq_some_iff.mp hi).1
            omega
        obtain ⟨itK, hk⟩ := hK
        simpa [startGlobals, hk] using this

/-- The start globals of the iterations: ordered watermarks once the initial
ones are, equal watermarks after the first iteration, and a committed
watermark that later iterations start at or above. -/
theorem startGlobals_spec (env : Env) (ps : List Pass) :
    ∀ (g : Globals) (its : List Iter), mainLoop env g ps = .ok its →
      ∀ M : Nat, M < its.length →
        (g.last_check ≤ g.new_last_check →
          (startGlobals g its M).last_check ≤ (startGlobals g its M).new_last_check ∧
            g.last_check ≤ (startGlobals g its M).last_check) ∧
        (0 < M → (startGlobals g its M).last_check = (startGlobals g its M).new_last_check) ∧
        ∀ (N : Nat) (itN : Iter), N < M → its[N]? = some itN →
          itN.globals.last_check ≤ (startGlobals g its M).last_check := by
  induction ps with
  | nil =>
    intro g its h M hM
    simp only [mainLoop] at h
    cases h
    simp at hM
  | cons p ps ih =>
    intro g its h M hM
    obtain ⟨it, rest, h1, h2, rfl⟩ := mainLoop_cons env g p ps its h
    obtain ⟨hm1, hm2⟩ := mainBody_mono env g p it h1
    cases M with
    | zero =>
      refine ⟨fun hg => ⟨hg, le_refl _⟩, fun h0 => absurd h0 (lt_irrefl 0), ?_⟩
      intro N itN hN _
      omega
    | succ M =>
      have hM1 : M < rest.length := by simpa using hM
      obtain ⟨i1, i2, i3⟩ := ih it.globals rest h2 M hM1
      have hstart : startGlobals g (it :: rest) (M + 1) = startGlobals it.globals rest M := by
        cases M with
        | zero => simp [startGlobals]
        | succ K =>
          have hK : K < rest.length := by omega
          simp [startGlobals, List.getElem?_eq_getElem hK]
      rw [hstart]
      obtain ⟨j1, j2⟩ := i1 (le_of_eq hm2)
      refine ⟨fun hg => ⟨j1, le_trans (le_trans hg hm1) j2⟩, fun _ => ?_, ?_⟩
      · cases M with
        | zero => simpa [startGlobals] using hm2
        | succ K => exact i2 (Nat.succ_pos K)
      · intro N itN hN hitN
        cases N with
        | zero =>
          simp only [List.getElem?_cons_zero, Option.some.injEq] at hitN
          subst hitN
          exact j2
        | succ N =>
          simp only [List.getElem?_cons_succ] at hitN
          exact i3 N itN (by omega) hitN

/-- C1: in a sequence of completed passes, a path handed to
`process_file` in pass `N`, whose entries carry the same modification time
in pass `N` and in a later pass `M`, is not handed to `process_file` in
pass `M`, whatever else the snapshots hold. -/
theorem C1_at_most_once (env : Env) (g : Globals) (ps : List Pass) (its : List Iter)
    (hrun : mainLoop env g ps = .ok its) (N M : Nat) (hNM : N < M)
    (pN pM : Pass) (itN itM : Iter)
    (hpN : ps[N]? = some pN) (hpM : ps[M]? = some pM)
    (hiN : its[N]? = some itN) (hiM : its[M]? = some itM)
    (path : String) (t : Int)
    (hN : ∀ v ∈ pN.walk, v.path = path → ∀ f, v.f = some f → f.ModTime = t)
    (hM : ∀ v ∈ pM.walk, v.path = path → ∀ f, v.f = some f → f.ModTime = t)
    (hup : path ∈ itN.uploads) : path ∉ itM.uploads := by
  have hbN := mainLoop_get env ps g its hrun N pN itN hpN hiN
  have hbM := mainLoop_get env ps g its hrun M pM itM hpM hiM
  have hlen : M < its.length := (List.getElem?_eq_some_iff.mp hiM).1
  obtain ⟨_, _, hlater⟩ := startGlobals_spec env ps g its hrun M hlen
  have hfloor := hlater N itN hNM hiN
  obtain ⟨hu, _, _, _⟩ := mainBody_ok env _ pN itN hbN
  rw [hu] at hup
  obtain ⟨v, hv, hp, _, f, hf, hlt, hreg⟩ := (mem_candidates _ _ _ _).mp hup
  have ht : f.ModTime ≤ itN.globals.last_check :=
    mainBody_floor env _ pN itN hbN v hv f hf hreg hlt
  rw [hN v hv hp f hf] at ht
  apply mainBody_not_uploaded env _ pM itM hbM path
  intro w hw hwp fw hfw
  rw [hM w hw hwp fw hfw]
  exact le_trans ht hfloor

theorem C1_at_most_once_witness :
    "a.jpg" ∉ (⟨["b.png"], ⟨160, 160⟩⟩ : Iter).uploads :=
  C1_at_most_once envUnix (init 100 101)
    [⟨[regularFile "a.jpg" 150], fun _ => answered 200 sampleBody⟩,
      ⟨[regularFile "a.jpg" 150, regularFile "b.png" 160], fun _ => answered 500 ""⟩]
    [⟨["a.jpg"], ⟨150, 150⟩⟩, ⟨["b.png"], ⟨160, 160⟩⟩] (by decide) 0 1 (by decide)
    ⟨[regularFile "a.jpg" 150], fun _ => answered 200 sampleBody⟩
    ⟨[regularFile "a.jpg" 150, regularFile "b.png" 160], fun _ => answered 500 ""⟩
    ⟨["a.jpg"], ⟨150, 150⟩⟩ ⟨["b.png"], ⟨160, 160⟩⟩ rfl rfl rfl rfl "a.jpg" 150
    (by
      intro v hv hp f hf
      simp only [List.mem_singleton] at hv
      subst hv
      simp only [regularFile, Option.some.injEq] at hf
      rw [← hf])
    (by
      intro v hv hp f hf
      simp only [List.mem_cons, List.mem_singleton, List.not_mem_nil, or_false] at hv
      rcases hv with rfl | rfl
      · simp only [regularFile, Option.some.injEq] at hf
        rw [← hf]
      · simp [regularFile] at hp)
    (by decide)

/-- C8: from a reachable state, once a completed pass `N` has visited a
regular file with modification time `T` (of whatever extension, so also an
ineligible one), a path whose entries in a later pass `M` all carry a
modification time not after `T` is not handed to `process_file` in pass
`M`. -/
theorem C8_watermark_floor (env : Env) (g : Globals) (ps : List Pass) (its : List Iter)
    (hg : Reachable env g) (hrun : mainLoop env g ps = .ok its) (N M : Nat) (hNM : N < M)
    (pN pM : Pass) (itM : Iter)
    (hpN : ps[N]? = some pN) (hpM : ps[M]? = some pM) (hiM : its[M]? = some itM)
    (v : Visit) (hv : v ∈ pN.walk) (f : FileInfo) (hf : v.f = some f)
    (hreg : IsRegular f.Mode = true) (path : String)
    (hlate : ∀ w ∈ pM.walk, w.path = path → ∀ fw, w.f = some fw → fw.ModTime ≤ f.ModTime) :
    path ∉ itM.uploads := by
  have hlen : M < its.length := (List.getElem?_eq_some_iff.mp hiM).1
  have hlenN : N < its.length := lt_trans hNM hlen
  have hiN : its[N]? = some its[N] := List.getElem?_eq_getElem hlenN
  have hbN := mainLoop_get env ps g its hrun N pN its[N] hpN hiN
  have hbM := mainLoop_get env ps g its hrun M pM itM hpM hiM
  obtain ⟨hordN, _, _⟩ := startGlobals_spec env ps g its hrun N hlenN
  obtain ⟨_, _, hlater⟩ := startGlobals_spec env ps g its hrun M hlen
  have hfloor := hlater N its[N] hNM hiN
  have ht : f.ModTime ≤ its[N].globals.last_check :=
    mainBody_ceiling env _ pN its[N] (hordN (Reachable_le env g hg)).1 hbN v hv f hf hreg
  apply mainBody_not_uploaded env _ pM itM hbM path
  intro w hw hwp fw hfw
  exact le_trans (le_trans (hlate w hw hwp fw hfw) ht) hfloor

theorem C8_watermark_floor_witness :
    "late.png" ∉ (⟨[], ⟨150, 150⟩⟩ : Iter).uploads :=
  C8_watermark_floor envUnix (init 100 101)
    [⟨[regularFile "notes.txt" 150], fun _ => answered 200 sampleBody⟩,
      ⟨[regularFile "late.png" 149, regularFile "notes.txt" 150],
        fun _ => answered 200 sampleBody⟩]
    [⟨[], ⟨150, 150⟩⟩, ⟨[], ⟨150, 150⟩⟩] (Reachable.start 100 101 (by decide)) (by decide)
    0 1 (by decide)
    ⟨[regularFile "notes.txt" 150], fun _ => answered 200 sampleBody⟩
    ⟨[regularFile "late.png" 149, regularFile "notes.txt" 150],
      fun _ => answered 200 sampleBody⟩
    ⟨[], ⟨150, 150⟩⟩ rfl rfl rfl
    (regularFile "notes.txt" 150) (List.mem_singleton.mpr rfl) ⟨150, 420⟩ rfl (by decide)
    "late.png"
    (by
      intro w hw hp fw hfw
      simp only [List.mem_cons, List.mem_singleton, List.not_mem_nil, or_false] at hw
      rcases hw with rfl | rfl
      · simp only [regularFile, Option.some.injEq] at hfw
        rw [← hfw]
        decide
      · simp [regularFile] at hp)

/-- C10 (as stated, refuted): the first pass starts with `new_last_check`
different from `last_check`; a first pass whose only new regular file has
modification time 103 commits 105, and a first pass with no new file moves
`last_check` from 100 to 105. -/
theorem C10_counterexample :
    (init 100 105).last_check ≤ (init 100 105).new_last_check ∧
      (init 100 105).new_last_check ≠ (init 100 105).last_check ∧
      newTimes (init 100 105).last_check [regularFile "a.jpg" 103] = [103] ∧
      mainBody envUnix (init 100 105)
          ⟨[regularFile "a.jpg" 103], fun _ => answered 200 sampleBody⟩ =
        .ok ⟨["a.jpg"], ⟨105, 105⟩⟩ ∧
      newTimes (init 100 105).last_check [] = [] ∧
      mainBody envUnix (init 100 105) ⟨[], fun _ => answered 200 sampleBody⟩ =
        .ok ⟨[], ⟨105, 105⟩⟩ := by
  decide

/-- C10 (amended): from the initial state, every pass starts with
`last_check ≤ new_last_check`, with equality in every pass after the first;
a completed pass commits the maximum of the start-of-pass `new_last_check`
and the modification times of the regular files modified strictly after
`last_check`; so a pass that starts with equal watermarks commits exactly
the maximum modification time among those files when there is one and
leaves `last_check` unchanged when there is none. -/
theorem C10_committed_value (env : Env) (now1 now2 : Int) (hnow : now1 ≤ now2)
    (ps : List Pass) (its : List Iter) (hrun : mainLoop env (init now1 now2) ps = .ok its)
    (M : Nat) (pM : Pass) (itM : Iter) (hpM : ps[M]? = some pM) (hiM : its[M]? = some itM) :
    (startGlobals (init now1 now2) its M).last_check ≤
        (startGlobals (init now1 now2) its M).new_last_check ∧
      (0 < M → (startGlobals (init now1 now2) its M).new_last_check =
        (startGlobals (init now1 now2) its M).last_check) ∧
      itM.globals.last_check =
        (newTimes (startGlobals (init now1 now2) its M).last_check pM.walk).foldl max
          (startGlobals (init now1 now2) its M).new_last_check ∧
      ((startGlobals (init now1 now2) its M).new_last_check =
          (startGlobals (init now1 now2) its M).last_check →
        (newTimes (startGlobals (init now1 now2) its M).last_check pM.walk = [] →
          itM.globals.last_check = (startGlobals (init now1 now2) its M).last_check) ∧
        (newTimes (startGlobals (init now1 now2) its M).last_check pM.walk ≠ [] →
          itM.globals.last_check ∈
              newTimes (startGlobals (init now1 now2) its M).last_check pM.walk ∧
            ∀ t ∈ newTimes (startGlobals (init now1 now2) its M).last_check pM.walk,
              t ≤ itM.globals.last_check)) := by
  have hb := mainLoop_get env ps (init now1 now2) its hrun M pM itM hpM hiM
  have hlen : M < its.length := (List.getElem?_eq_some_iff.mp hiM).1
  obtain ⟨hord, heq, _⟩ := startGlobals_spec env ps (init now1 now2) its hrun M hlen
  obtain ⟨_, h2, h3, _⟩ := mainBody_ok env _ pM itM hb
  have hcommit := h3.trans h2
  refine ⟨(hord hnow).1, fun h0 => (heq h0).symm, hcommit, ?_⟩
  intro hstart
  rw [hcommit, hstart]
  refine ⟨fun hnil => by rw [hnil]; rfl, fun hne => ?_⟩
  have hall : ∀ t ∈ newTimes (startGlobals (init now1 now2) its M).last_check pM.walk,
      t ≤ (newTimes (startGlobals (init now1 now2) its M).last_check pM.walk).foldl max
        (startGlobals (init now1 now2) its M).last_check :=
    fun t ht => foldl_max_ge_mem _ _ t ht
  refine ⟨?_, hall⟩
  rcases foldl_max_mem (newTimes (startGlobals (init now1 now2) its M).last_check pM.walk)
    (startGlobals (init now1 now2) its M).last_check with h | h
  · obtain ⟨t, ht⟩ := List.exists_mem_of_ne_nil _ hne
    have h1 := hall t ht
    obtain ⟨_, _, f, _, hlt, _, hft⟩ := (mem_newTimes _ _ _).mp ht
    rw [h, ← hft] at h1
    exact absurd h1 (not_le.mpr hlt)
  · exact h

/-- C5: `check_file` never returns a non-nil error, whatever walk error it
is called with; an entry that `filepath.Walk` reports with a non-nil error
(a directory it could not read) makes `check_file` return nil, and the pass
completes and commits the watermark. -/
theorem C5_walk_error_ignored :
    (∀ (env : Env) (net : String → Upload) (g : Globals) (v : Visit) (e : String),
        (check_file env net g v).result ≠ .ok (some e)) ∧
      (check_file envUnix (fun _ => answered 200 sampleBody) (init 100 101)
        ⟨"pics/locked", some ⟨60, ModeDir ||| 448⟩,
          some "open pics/locked: permission denied"⟩).result = .ok none ∧
      mainBody envUnix (init 100 101)
          ⟨[⟨"pics", some ⟨50, ModeDir ||| 493⟩, none⟩, regularFile "pics/a.jpg" 150,
              ⟨"pics/locked", some ⟨60, ModeDir ||| 448⟩,
                some "open pics/locked: permission denied"⟩],
            fun _ => answered 200 sampleBody⟩ =
        .ok ⟨["pics/a.jpg"], ⟨150, 150⟩⟩ := by
  refine ⟨?_, by decide, by decide⟩
  intro env net g v e h
  rcases check_file_result env net g v with h1 | ⟨x, h1⟩
  · rw [h1] at h
    cases h
  · rw [h1] at h
    cases h

/-! ## The extension filter -/

theorem ExtLoop_append (env : Env) (pre : List Char) :
    ∀ suf : List Char, ExtLoop env (pre ++ suf) pre.length =
      if '.' ∈ pre.reverse.takeWhile (fun c => !IsPathSeparator env c)
      then '.' :: (pre.reverse.takeWhile (fun c => c != '.')).reverse ++ suf else [] := by
  induction pre using List.reverseRecOn with
  | nil => intro suf; simp [ExtLoop]
  | append_singleton pre c ih =>
    intro suf
    have hget : (pre ++ [c] ++ suf).getD pre.length 'x' = c := by
      rw [List.append_assoc, List.getD_eq_getElem?_getD, List.getElem?_append_right (le_refl _)]
      simp
    have hlen : (pre ++ [c]).length = pre.length + 1 := by simp
    rw [hlen, ExtLoop, hget]
    by_cases hs : IsPathSeparator env c = true
    · simp [hs, List.takeWhile_cons]
    · by_cases hd : c = '.'
      · subst hd
        simp [hs, List.takeWhile_cons]
      · have hd2 : (c == '.') = false := by simpa using hd
        have hne : ¬ ('.' = c) := fun h => hd h.symm
        have := ih (c :: suf)
        simp only [List.append_assoc, List.singleton_append] at this ⊢
        rw [this]
        simp [hs, hd, hd2, hne, List.takeWhile_cons]

theorem takeWhile_takeWhile_dot (p : Char → Bool) (r : List Char) :
    '.' ∈ r.takeWhile p →
      (r.takeWhile p).takeWhile (fun c => c != '.') = r.takeWhile (fun c => c != '.') := by
  induction r with
  | nil => intro h; simp at h
  | cons c r ih =>
    intro h
    by_cases hp : p c = true
    · by_cases hd : c = '.'
      · subst hd
        simp [List.takeWhile_cons, hp]
      · have hne : ¬ ('.' = c) := fun h => hd h.symm
        simp only [List.takeWhile_cons, hp, if_true, List.mem_cons, hne, false_or] at h
        simp [List.takeWhile_cons, hp, hd, ih h]
    · simp [List.takeWhile_cons, hp] at h

theorem ExtLoop_spec (env : Env) (path : List Char) :
    ExtLoop env path path.length = suffixFromFinalDot (lastElement env path) := by
  have h := ExtLoop_append env path []
  rw [List.append_nil] at h
  rw [h]
  unfold suffixFromFinalDot lastElement
  by_cases hm : '.' ∈ path.reverse.takeWhile (fun c => !IsPathSeparator env c)
  · simp only [List.mem_reverse, hm, if_true, List.reverse_reverse, List.append_nil]
    rw [takeWhile_takeWhile_dot _ _ hm]
  · simp only [List.mem_reverse, hm, if_false]

theorem Ext_eq_specExt (env : Env) (path : String) : Ext env path = specExt env path := by
  unfold Ext specExt
  rw [ExtLoop_spec]

theorem file_eligible_examples (env : Env) :
    file_eligible env "x.PNG" = true ∧ file_eligible env "x.Jpg" = true ∧
      file_eligible env "x.GIF" = true ∧ file_eligible env "x.pdf" = false ∧
      file_eligible env "x.jpeg" = false ∧ file_eligible env "README" = false ∧
      file_eligible env "dir.png/file" = false := by
  obtain ⟨w, ul, um⟩ := env
  cases w <;> exact ⟨rfl, rfl, rfl, rfl, rfl, rfl, rfl⟩

/-- C9: `file_eligible` returns true exactly when the extension of the
path, being the suffix of its last path element from the final dot on
(empty when that element has no dot), lower-cased, is `.png`, `.jpg` or
`.gif`; `x.PNG`, `x.Jpg` and `x.GIF` are eligible, `x.pdf`, `x.jpeg`, a name
without a dot and `dir.png/file` are not. -/
theorem C9_file_eligible_extension (env : Env) (path : String) :
    Ext env path = specExt env path ∧
      (file_eligible env path = true ↔
        ToLower env (specExt env path) = ".png" ∨ ToLower env (specExt env path) = ".jpg" ∨
          ToLower env (specExt env path) = ".gif") ∧
      ('.' ∉ lastElement env path.data → file_eligible env path = false) ∧
      file_eligible env "x.PNG" = true ∧ file_eligible env "x.Jpg" = true ∧
      file_eligible env "x.GIF" = true ∧ file_eligible env "x.pdf" = false ∧
      file_eligible env "x.jpeg" = false ∧ file_eligible env "README" = false ∧
      file_eligible env "dir.png/file" = false := by
  refine ⟨Ext_eq_specExt env path, ?_, ?_, file_eligible_examples env⟩
  · rw [file_eligible_iff, Ext_eq_specExt]
  · intro hdot
    have h : specExt env path = String.mk [] := by
      unfold specExt suffixFromFinalDot
      rw [if_neg hdot]
    cases hb : file_eligible env path with
    | false => rfl
    | true =>
      rw [file_eligible_iff, Ext_eq_specExt, h] at hb
      have hl : ToLower env (String.mk []) = String.mk [] := rfl
      rw [hl] at hb
      revert hb
      decide

theorem C9_file_eligible_extension_witness :
    file_eligible envUnix "dir.png/file" = false :=
  (C9_file_eligible_extension envUnix "dir.png/file").2.2.1 (by decide)

/-! ## The outcome of an upload -/

/-- A response with status 200 whose body cannot be read ends the process. -/
theorem process_file_body_unreadable (env : Env) (u : Upload) (resp : Response) (e : String)
    (hreq : newfileUploadRequest u = .ok none) (hdo : u.Do = .ok resp)
    (hs : resp.StatusCode = 200) (hbody : resp.Body = .error e) :
    process_file env u = .error (.fatal ("could not deal with body" ++ e)) := by
  simp [process_file, hreq, hdo, hs, hbody]

/-- C6: when the request was built, `client.Do` returned a response and its
body (read only under status 200) was read, `process_file` never ends the
process; it reports an upload
exactly when the status code is 200, the body is decoded and the decoded
attachments list is non-empty, and then reports the identifier of the
response and the url, width, height and size of the first attachment; a
status other than 200, an undecodable body and an empty attachments list
are each reported as a failure of this file, after which `check_file`
returns nil and the walk goes on.  With a decoder that reads the
specification's sample body as `encoding/json` does, the report is
identifier 42, 1024 bytes, 10 by 20; the empty object is reported as having
no attachments. -/
theorem C6_upload_outcome (env : Env) (u : Upload) (resp : Response) (body : String)
    (hreq : newfileUploadRequest u = .ok none) (hdo : u.Do = .ok resp)
    (hbody : resp.StatusCode = 200 → resp.Body = .ok body) :
    ((∃ url width height id size,
          process_file env u = .ok (.uploaded url width height id size)) ↔
        (resp.StatusCode = 200 ∧
          ∃ res, env.unmarshal body = .ok res ∧ res.Attachments ≠ [])) ∧
      (∀ res a rest, resp.StatusCode = 200 → env.unmarshal body = .ok res →
        res.Attachments = a :: rest →
        process_file env u = .ok (.uploaded a.Url a.Width a.Height res.Id a.Size)) ∧
      (resp.StatusCode ≠ 200 → process_file env u = .ok (.badResponse resp.StatusCode)) ∧
      (∀ e, resp.StatusCode = 200 → env.unmarshal body = .error e →
        process_file env u = .ok (.couldNotParse e body)) ∧
      (∀ res, resp.StatusCode = 200 → env.unmarshal body = .ok res → res.Attachments = [] →
        process_file env u = .ok .noAttachments) ∧
      (∃ rep, process_file env u = .ok rep) ∧
      (∀ (net : String → Upload) (g : Globals) (path : String) (f : FileInfo)
          (err : Option String), net path = u →
        (check_file env net g ⟨path, some f, err⟩).result = .ok none) ∧
      (resp.StatusCode = 200 → body = sampleBody →
        env.unmarshal sampleBody = .ok sampleResponse →
        process_file env u = .ok (.uploaded "https://x/y.png" 10 20 42 1024)) ∧
      (resp.StatusCode = 200 → body = "\x7b\x7d" →
        env.unmarshal "\x7b\x7d" = .ok ⟨[], 0⟩ →
        process_file env u = .ok .noAttachments) := by
  have hbad : resp.StatusCode ≠ 200 →
      process_file env u = .ok (.badResponse resp.StatusCode) := by
    intro hs
    simp [process_file, hreq, hdo, hs]
  have herr : ∀ e, resp.StatusCode = 200 → env.unmarshal body = .error e →
      process_file env u = .ok (.couldNotParse e body) := by
    intro e hs he
    simp [process_file, hreq, hdo, hs, hbody hs, he]
  have hnil : ∀ res, resp.StatusCode = 200 → env.unmarshal body = .ok res →
      res.Attachments = [] → process_file env u = .ok .noAttachments := by
    intro res hs hr ha
    simp [process_file, hreq, hdo, hs, hbody hs, hr, ha]
  have hcons : ∀ res a rest, resp.StatusCode = 200 → env.unmarshal body = .ok res →
      res.Attachments = a :: rest →
      process_file env u = .ok (.uploaded a.Url a.Width a.Height res.Id a.Size) := by
    intro res a rest hs hr ha
    simp [process_file, hreq, hdo, hs, hbody hs, hr, ha]
  have hret : ∃ rep, process_file env u = .ok rep := by
    by_cases hs : resp.StatusCode = 200
    · cases hr : env.unmarshal body with
      | error e => exact ⟨_, herr e hs hr⟩
      | ok res =>
        cases ha : res.Attachments with
        | nil => exact ⟨_, hnil res hs hr ha⟩
        | cons a rest => exact ⟨_, hcons res a rest hs hr ha⟩
    · exact ⟨_, hbad hs⟩
  refine ⟨?_, hcons, hbad, herr, hnil, hret, ?_, ?_, ?_⟩
  · constructor
    · rintro ⟨url, width, height, id, size, hp⟩
      by_cases hs : resp.StatusCode = 200
      · refine ⟨hs, ?_⟩
        cases hr : env.unmarshal body with
        | error e => rw [herr e hs hr] at hp; cases hp
        | ok res =>
          refine ⟨res, rfl, ?_⟩
          intro ha
          rw [hnil res hs hr ha] at hp
          cases hp
      · rw [hbad hs] at hp
        cases hp
    · rintro ⟨hs, res, hr, hne⟩
      cases ha : res.Attachments with
      | nil => exact absurd ha hne
      | cons a rest => exact ⟨_, _, _, _, _, hcons res a rest hs hr ha⟩
  · intro net g path f err hnet
    obtain ⟨rep, hrep⟩ := hret
    rw [check_file_some env net g ⟨path, some f, err⟩ f rfl]
    simp only [hnet, hrep]
    split
    · split <;> rfl
    · rfl
  · intro hs hb hu
    subst hb
    exact hcons sampleResponse _ [] hs hu rfl
  · intro hs hb hu
    subst hb
    exact hnil _ hs hu rfl

theorem C6_upload_outcome_witness :
    process_file envUnix (answered 200 sampleBody) =
      .ok (.uploaded "https://x/y.png" 10 20 42 1024) :=
  (C6_upload_outcome envUnix (answered 200 sampleBody) ⟨200, .ok sampleBody⟩ sampleBody
    rfl rfl (fun _ => rfl)).2.2.2.2.2.2.2.1 rfl rfl (by decide)

theorem C10_committed_value_witness :
    (160 : Int) =
      (newTimes (startGlobals (init 100 105)
          [⟨["a.jpg"], ⟨105, 105⟩⟩, ⟨["b.png"], ⟨160, 160⟩⟩] 1).last_check
        [regularFile "a.jpg" 103, regularFile "b.png" 160]).foldl max
        (startGlobals (init 100 105)
          [⟨["a.jpg"], ⟨105, 105⟩⟩, ⟨["b.png"], ⟨160, 160⟩⟩] 1).new_last_check :=
  (C10_committed_value envUnix 100 105 (by decide)
    [⟨[regularFile "a.jpg" 103], fun _ => answered 200 sampleBody⟩,
      ⟨[regularFile "a.jpg" 103, regularFile "b.png" 160], fun _ => answered 500 ""⟩]
    [⟨["a.jpg"], ⟨105, 105⟩⟩, ⟨["b.png"], ⟨160, 160⟩⟩] (by decide) 1
    ⟨[regularFile "a.jpg" 103, regularFile "b.png" 160], fun _ => answered 500 ""⟩
    ⟨["b.png"], ⟨160, 160⟩⟩ rfl rfl).2.2.1

end Dau
